import Mathlib

/-!
Verification of `date-range-utils` (src/index.ts) against its specification.

The embedding models a JavaScript `Date` at the granularity the library uses:
a calendar day (days since 1970-01-01 in local time) together with a
time-of-day offset.  The date-fns primitives the code imports
(`startOfDay`, `differenceInCalendarDays`, `addDays`, `getMonth`,
`getISOWeek`) are given their documented semantics via proleptic-Gregorian
calendar arithmetic (Howard Hinnant's civil-calendar algorithms).

Each exported class of src/index.ts is embedded as a Lean function:
`StandardDateGenerationStrategy.generate`        → `DRU.generate`
`MonthGroupingStrategy.group`                    → `DRU.group`
`WeekNumberDecorator.decorate`                   → `DRU.decorateOpt` / `DRU.decorate`
`DateRange` constructor                          → `DRU.mkDateRange`
The decorator's access `weekDates[weekDates.length - 1]` (which yields
`undefined` on an empty array in JavaScript) is modelled by `List.getLast?`,
with `none` propagated, so totality of the decorator is a provable statement
rather than an assumption.
-/

namespace DRU

/-- A JavaScript date at the granularity used by the library: `day` is the
calendar day (days since 1970-01-01, local time) and `tod` the
milliseconds elapsed within that day.  JS compares dates by their
timestamp, modelled by `toMillis`. -/
structure Date where
  day : Int
  tod : Nat
deriving DecidableEq, Repr

/-- Timestamp of a date, in milliseconds; JS `<`, `>` on `Date` compare this. -/
def toMillis (d : Date) : Int :=
  d.day * 86400000 + d.tod

/-- date-fns `startOfDay`: same calendar day, midnight. -/
def startOfDay (d : Date) : Date :=
  ⟨d.day, 0⟩

/-- date-fns `addDays`: advance by whole days, keeping the time of day. -/
def addDays (d : Date) (n : Int) : Date :=
  ⟨d.day + n, d.tod⟩

/-- date-fns `differenceInCalendarDays dateLeft dateRight`: number of calendar
days between the two dates, ignoring time of day. -/
def differenceInCalendarDays (dateLeft dateRight : Date) : Int :=
  dateLeft.day - dateRight.day

/-- Civil (proleptic Gregorian) date from a day number (day 0 = 1970-01-01):
returns `(year, month 1-12, day 1-31)`.  Hinnant's `civil_from_days`,
with the era computed by floor division so the remainder is a `Nat`. -/
def civilFromDays (z0 : Int) : Int × Nat × Nat :=
  let z := z0 + 719468
  let era := Int.fdiv z 146097
  let doe := (z - era * 146097).toNat
  let yoe := (doe - doe / 1460 + doe / 36524 - doe / 146096) / 365
  let doy := doe - (365 * yoe + yoe / 4 - yoe / 100)
  let mp := (5 * doy + 2) / 153
  let d := doy - (153 * mp + 2) / 5 + 1
  let m := if mp < 10 then mp + 3 else mp - 9
  (era * 400 + yoe + (if m ≤ 2 then 1 else 0), m, d)

/-- Day number (day 0 = 1970-01-01) of a civil date.  Hinnant's
`days_from_civil`. -/
def daysFromCivil (y : Int) (m d : Nat) : Int :=
  let y' := if m ≤ 2 then y - 1 else y
  let era := Int.fdiv y' 400
  let yoe := (y' - era * 400).toNat
  let mp := if 2 < m then m - 3 else m + 9
  let doy := (153 * mp + 2) / 5 + d - 1
  let doe := yoe * 365 + yoe / 4 - yoe / 100 + doy
  era * 146097 + (doe : Int) - 719468

/-- Convenience constructor for concrete dates at midnight. -/
def mkDate (y : Int) (m d : Nat) : Date :=
  ⟨daysFromCivil y m d, 0⟩

/-- date-fns `getMonth` (also JS `Date.prototype.getMonth`): 0-based month. -/
def getMonth (d : Date) : Nat :=
  (civilFromDays d.day).2.1 - 1

/-- ISO-8601 day of week of a day number: 1 = Monday .. 7 = Sunday
(1970-01-01 was a Thursday). -/
def isoDayOfWeek (day : Int) : Nat :=
  ((day + 3).emod 7).toNat + 1

/-- date-fns `getISOWeek`: ISO-8601 week number (Monday-start weeks, week 1
contains the year's first Thursday).  Computed as: take the Thursday of the
date's week; the week number is its ordinal-day index in its own civil year,
divided by 7, plus one. -/
def getISOWeek (d : Date) : Nat :=
  let thursday := d.day + 4 - (isoDayOfWeek d.day : Int)
  let y := (civilFromDays thursday).1
  let jan1 := daysFromCivil y 1 1
  (thursday - jan1).toNat / 7 + 1

example : daysFromCivil 1970 1 1 = 0 := by decide
example : civilFromDays 0 = (1970, 1, 1) := by decide
example : daysFromCivil 2023 1 1 = 19358 := by decide
example : civilFromDays 19358 = (2023, 1, 1) := by decide
example : isoDayOfWeek (daysFromCivil 2023 1 1) = 7 := by decide
example : getISOWeek (mkDate 2023 1 1) = 52 := by decide
example : getISOWeek (mkDate 2023 1 2) = 1 := by decide
example : getISOWeek (mkDate 2023 12 31) = 52 := by decide
example : getISOWeek (mkDate 2024 1 1) = 1 := by decide
example : getISOWeek (mkDate 2023 6 15) = 24 := by decide
example : getMonth (mkDate 2023 1 31) = 0 := by decide
example : getMonth (mkDate 2024 2 29) = 1 := by decide
example : getMonth (mkDate 2023 12 5) = 11 := by decide

/-- English long month name for a 0-based month, modelling the default-locale
result of JS `date.toLocaleString` with the long month option. -/
def monthLongName : Nat → String
  | 0 => "January"
  | 1 => "February"
  | 2 => "March"
  | 3 => "April"
  | 4 => "May"
  | 5 => "June"
  | 6 => "July"
  | 7 => "August"
  | 8 => "September"
  | 9 => "October"
  | 10 => "November"
  | _ => "December"

/-- Long month name of a date (depends only on its month-of-year). -/
def toLocaleMonthLong (d : Date) : String :=
  monthLongName (getMonth d)

/-- `StandardDateGenerationStrategy.generate` (src/index.ts lines 38-48):
`totalDays = differenceInCalendarDays(endDate, startDate) + 1`, then a loop
pushing `dateFactory(addDays(startDate, i))` for `i = 0 .. totalDays - 1`. -/
def generate {T : Type} (dateFactory : Date → T) (startDate endDate : Date) : List T :=
  let totalDays := differenceInCalendarDays endDate startDate + 1
  (List.range totalDays.toNat).map (fun i => dateFactory (addDays startDate (Int.ofNat i)))

/-- `MonthInfo<T>` (src/index.ts lines 27-31). -/
structure MonthInfo (T : Type) where
  title : String
  number : Nat
  data : List T
deriving DecidableEq, Repr

/-- One step of the `dates.forEach` body of `MonthGroupingStrategy.group`
(src/index.ts lines 57-68).  The JS `Map<number, MonthInfo>` is modelled as an
insertion-ordered association list keyed by the 0-based month: a missing key
appends a fresh `MonthInfo` with the record's month name, `month + 1` and empty
data; then the record is pushed onto the keyed entry's data. -/
def insertRecord {T : Type} (dateOf : T → Date) (acc : List (Nat × MonthInfo T)) (r : T) :
    List (Nat × MonthInfo T) :=
  let month := getMonth (dateOf r)
  if acc.any (fun p => p.1 == month) then
    acc.map (fun p =>
      if p.1 == month then (p.1, ⟨p.2.title, p.2.number, p.2.data ++ [r]⟩) else p)
  else
    acc ++ [(month, ⟨toLocaleMonthLong (dateOf r), month + 1, [r]⟩)]

/-- Insertion step of sorting buckets by `number` ascending. -/
def insertByNumber {T : Type} (b : MonthInfo T) : List (MonthInfo T) → List (MonthInfo T)
  | [] => [b]
  | c :: cs => if b.number ≤ c.number then b :: c :: cs else c :: insertByNumber b cs

/-- Sorting by `number` ascending, modelling the JS
`.sort((a, b) => a.number - b.number)` (src/index.ts line 70); since the keys
are pairwise distinct, the ascending arrangement is unique, so any correct
sort computes the JS result. -/
def sortByNumber {T : Type} : List (MonthInfo T) → List (MonthInfo T)
  | [] => []
  | b :: bs => insertByNumber b (sortByNumber bs)

/-- `MonthGroupingStrategy.group` (src/index.ts lines 54-71): fold the records
through the map insertion, take the map's values, sort by month number. -/
def group {T : Type} (dateOf : T → Date) (dates : List T) : List (MonthInfo T) :=
  sortByNumber ((dates.foldl (insertRecord dateOf) []).map Prod.snd)

/-- `WeekNumberDecoration<T>` (src/index.ts lines 74-81): either an input
record carried through, or a week-marker object
`\x7b date, isWeekNumberDecoration: true, weekNumber, isMultiMonth \x7d`. -/
inductive WeekNumberDecoration (T : Type) where
  | record (r : T)
  | marker (date : Date) (weekNumber : Nat) (isMultiMonth : Bool)
deriving DecidableEq, Repr

/-- Body of the `dates.forEach` loop of `WeekNumberDecorator.decorate`
(src/index.ts lines 98-139), as a recursion in which `cur` is the current
record and the list argument is the remaining input (so `rest = []` is
`isLastDate`, and `isWeekChanging` reads the head of `rest`).  State carried:
`weekDates` (dates collected for the current week) and `currentWeek`.  The JS
read `weekDates[weekDates.length - 1]`, which is `undefined` on an empty
array, is modelled by `getLast?`, propagating `none`. -/
def decorateGo {T : Type} (dateOf : T → Date) (cur : T) (weekDates : List Date)
    (currentWeek : Nat) : List T → Option (List (WeekNumberDecoration T))
  | [] =>
    let dateWeek := getISOWeek (dateOf cur)
    let weekDates' := if dateWeek = currentWeek then weekDates ++ [dateOf cur] else weekDates
    match weekDates'.getLast? with
    | none => none
    | some lastDateOfWeek =>
      some [.record cur,
        .marker lastDateOfWeek currentWeek
          (weekDates'.any (fun d => getMonth d != getMonth lastDateOfWeek))]
  | next :: rest =>
    let dateWeek := getISOWeek (dateOf cur)
    let weekDates' := if dateWeek = currentWeek then weekDates ++ [dateOf cur] else weekDates
    if getISOWeek (dateOf next) ≠ currentWeek then
      match weekDates'.getLast? with
      | none => none
      | some lastDateOfWeek =>
        Option.map (fun tail =>
            .record cur ::
            .marker lastDateOfWeek currentWeek
              (weekDates'.any (fun d => getMonth d != getMonth lastDateOfWeek)) :: tail)
          (decorateGo dateOf next [dateOf next] (getISOWeek (dateOf next)) rest)
    else
      Option.map (fun tail => .record cur :: tail)
        (decorateGo dateOf next weekDates' currentWeek rest)

/-- `WeekNumberDecorator.decorate` (src/index.ts lines 91-142): empty input
gives `[]`; otherwise the loop starts with empty `weekDates` and
`currentWeek = getISOWeek(dates[0].date)`.  `none` marks the (unreachable)
state in which the marker would read an empty `weekDates`. -/
def decorateOpt {T : Type} (dateOf : T → Date) : List T → Option (List (WeekNumberDecoration T))
  | [] => some []
  | d :: rest => decorateGo dateOf d [] (getISOWeek (dateOf d)) rest

/-- The decorator's output list (total form of `decorateOpt`). -/
def decorate {T : Type} (dateOf : T → Date) (dates : List T) : List (WeekNumberDecoration T) :=
  (decorateOpt dateOf dates).getD []

/-- Decomposition of the input into maximal runs of equal ISO week number:
`cur` is the current record, `accRun` the earlier records of its run. -/
def weekRunsGo {T : Type} (dateOf : T → Date) (cur : T) (accRun : List T) :
    List T → List (List T)
  | [] => [accRun ++ [cur]]
  | next :: rest =>
    if getISOWeek (dateOf next) = getISOWeek (dateOf cur) then
      weekRunsGo dateOf next (accRun ++ [cur]) rest
    else
      (accRun ++ [cur]) :: weekRunsGo dateOf next [] rest

/-- Maximal runs of records sharing one ISO week number, in input order. -/
def weekRuns {T : Type} (dateOf : T → Date) : List T → List (List T)
  | [] => []
  | d :: rest => weekRunsGo dateOf d [] rest

/-- The week marker emitted for one (nonempty) run: its date is the run's
last record's date, its week number that record's ISO week, and the
multi-month flag says whether some record of the run has a different
calendar month than the last one. -/
def runMarkerOf {T : Type} (dateOf : T → Date) (run : List T) : List (WeekNumberDecoration T) :=
  match run.getLast? with
  | none => []
  | some lastRec =>
    [.marker (dateOf lastRec) (getISOWeek (dateOf lastRec))
      ((run.map dateOf).any (fun d => getMonth d != getMonth (dateOf lastRec)))]

/-- Runs-based reference form of the decorator: each run contributes its
records unchanged followed immediately by its single week marker. -/
def decorateRuns {T : Type} (dateOf : T → Date) (dates : List T) :
    List (WeekNumberDecoration T) :=
  (weekRuns dateOf dates).flatMap (fun run => run.map .record ++ runMarkerOf dateOf run)

/-- Extract the record carried by a decoration, if it is one. -/
def recordOf {T : Type} : WeekNumberDecoration T → Option T
  | .record r => some r
  | .marker _ _ _ => none

/-- Extract a marker's date, if the decoration is a marker. -/
def markerDateOf {T : Type} : WeekNumberDecoration T → Option Date
  | .record _ => none
  | .marker d _ _ => some d

/-- Extract a marker's week number, if the decoration is a marker. -/
def markerWeekOf {T : Type} : WeekNumberDecoration T → Option Nat
  | .record _ => none
  | .marker _ w _ => some w

/-- Extract a marker's multi-month flag, if the decoration is a marker. -/
def markerMultiOf {T : Type} : WeekNumberDecoration T → Option Bool
  | .record _ => none
  | .marker _ _ m => some m

/-- Boolean check that the records' dates are strictly ascending as JS
timestamps (the decorator's documented precondition). -/
def isAscending {T : Type} (dateOf : T → Date) : List T → Bool
  | [] => true
  | [_] => true
  | a :: b :: rest =>
    decide (toMillis (dateOf a) < toMillis (dateOf b)) && isAscending dateOf (b :: rest)

/-- The message of the error thrown by the `DateRange` constructor
(src/index.ts lines 156-159): it embeds the rendering of both normalized
dates.  `toLocaleString` is modelled by `reprStr` on the date value. -/
def rangeErrorMessage (start endDate : Date) : String :=
  "ERROR! location: DateRange.ts. Message: " ++ reprStr start ++
    " is greater than " ++ reprStr endDate

/-- The state a `DateRange<T, S>` holds after construction. -/
structure DateRange (T S : Type) where
  startDate : Date
  endDate : Date
  dates : List (T ⊕ S)
deriving Repr

/-- The `DateRange` constructor (src/index.ts lines 148-164): normalize both
dates with `startOfDay`; if `start > end` (JS timestamp comparison) throw an
error whose message carries both dates; otherwise store the normalized dates,
with the working sequence `dates` initialized empty. -/
def mkDateRange (T S : Type) (startDate endDate : Date) : Except String (DateRange T S) :=
  let start := startOfDay startDate
  let endD := startOfDay endDate
  if toMillis endD < toMillis start then
    Except.error (rangeErrorMessage start endD)
  else
    Except.ok ⟨start, endD, []⟩

/-! ## Structure of the decorator: equality with the runs-based reference -/

theorem decorateGo_eq_weekRunsGo {T : Type} (dateOf : T → Date) :
    ∀ (rest : List T) (cur : T) (weekDates : List Date) (accRun : List T),
      (∀ p : Date → Bool,
          (weekDates ++ [dateOf cur]).any p = ((accRun ++ [cur]).map dateOf).any p) →
      Option.map (fun out => accRun.map WeekNumberDecoration.record ++ out)
          (decorateGo dateOf cur weekDates (getISOWeek (dateOf cur)) rest)
        = some ((weekRunsGo dateOf cur accRun rest).flatMap
            (fun run => run.map WeekNumberDecoration.record ++ runMarkerOf dateOf run)) := by
  intro rest
  induction rest with
  | nil =>
    intro cur weekDates accRun hInv
    simp [decorateGo, weekRunsGo, runMarkerOf, hInv]
  | cons next rest' ih =>
    intro cur weekDates accRun hInv
    by_cases h : getISOWeek (dateOf next) = getISOWeek (dateOf cur)
    · have hInv' : ∀ p : Date → Bool,
          ((weekDates ++ [dateOf cur]) ++ [dateOf next]).any p
            = (((accRun ++ [cur]) ++ [next]).map dateOf).any p := by
        intro p
        have h1 := hInv p
        simp only [List.any_append, List.any_cons, List.any_nil, Bool.or_false,
          List.map_append, List.map_cons, List.map_nil] at h1 ⊢
        rw [h1]
      have key := ih next (weekDates ++ [dateOf cur]) (accRun ++ [cur]) hInv'
      rw [h] at key
      simp only [decorateGo, weekRunsGo, h, ne_eq, not_true_eq_false, if_false, if_pos rfl,
        ite_true, ite_false]
      simpa [Option.map_map, Function.comp] using key
    · have hInv0 : ∀ p : Date → Bool,
          (([dateOf next] : List Date) ++ [dateOf next]).any p
            = ((([] : List T) ++ [next]).map dateOf).any p := by
        intro p; simp
      have key := ih next [dateOf next] [] hInv0
      simp only [List.map_nil, List.nil_append] at key
      have key' : decorateGo dateOf next [dateOf next] (getISOWeek (dateOf next)) rest'
          = some ((weekRunsGo dateOf next [] rest').flatMap
              (fun run => run.map WeekNumberDecoration.record ++ runMarkerOf dateOf run)) := by
        cases hd : decorateGo dateOf next [dateOf next] (getISOWeek (dateOf next)) rest' with
        | none => rw [hd] at key; simp at key
        | some x => rw [hd] at key; simpa using key
      simp only [decorateGo, weekRunsGo, h, ne_eq, not_false_eq_true, if_true, if_pos rfl,
        ite_true, ite_false]
      rw [key']
      simp [runMarkerOf, hInv]

theorem decorateOpt_eq_decorateRuns {T : Type} (dateOf : T → Date) (dates : List T) :
    decorateOpt dateOf dates = some (decorateRuns dateOf dates) := by
  cases dates with
  | nil => simp [decorateOpt, decorateRuns, weekRuns]
  | cons d rest =>
    have hInv : ∀ p : Date → Bool,
        (([] : List Date) ++ [dateOf d]).any p = ((([] : List T) ++ [d]).map dateOf).any p := by
      intro p; simp
    have key := decorateGo_eq_weekRunsGo dateOf rest d [] [] hInv
    simp only [List.map_nil, List.nil_append] at key
    simp only [decorateOpt, decorateRuns, weekRuns]
    cases hd : decorateGo dateOf d [] (getISOWeek (dateOf d)) rest with
    | none => rw [hd] at key; simp at key
    | some x => rw [hd] at key; simpa using key

theorem decorate_eq_decorateRuns {T : Type} (dateOf : T → Date) (dates : List T) :
    decorate dateOf dates = decorateRuns dateOf dates := by
  simp [decorate, decorateOpt_eq_decorateRuns]

/-! ## Properties of the run decomposition -/

theorem weekRunsGo_flatten {T : Type} (dateOf : T → Date) :
    ∀ (rest : List T) (cur : T) (accRun : List T),
      (weekRunsGo dateOf cur accRun rest).flatten = accRun ++ cur :: rest := by
  intro rest
  induction rest with
  | nil => intro cur accRun; simp [weekRunsGo]
  | cons next rest' ih =>
    intro cur accRun
    by_cases h : getISOWeek (dateOf next) = getISOWeek (dateOf cur)
    · simp [weekRunsGo, h, ih]
    · simp [weekRunsGo, h, ih]

theorem weekRuns_flatten {T : Type} (dateOf : T → Date) (dates : List T) :
    (weekRuns dateOf dates).flatten = dates := by
  cases dates with
  | nil => simp [weekRuns]
  | cons d rest => simp [weekRuns, weekRunsGo_flatten]

theorem weekRunsGo_ne_nil {T : Type} (dateOf : T → Date) :
    ∀ (rest : List T) (cur : T) (accRun : List T),
      ∀ run ∈ weekRunsGo dateOf cur accRun rest, run ≠ [] := by
  intro rest
  induction rest with
  | nil =>
    intro cur accRun run hrun
    simp [weekRunsGo] at hrun
    simp [hrun]
  | cons next rest' ih =>
    intro cur accRun run hrun
    by_cases h : getISOWeek (dateOf next) = getISOWeek (dateOf cur)
    · simp only [weekRunsGo, h, if_pos] at hrun
      exact ih next (accRun ++ [cur]) run hrun
    · simp only [weekRunsGo, h, if_neg, List.mem_cons, ite_false] at hrun
      rcases hrun with hrun | hrun
      · simp [hrun]
      · exact ih next [] run hrun

theorem weekRuns_ne_nil {T : Type} (dateOf : T → Date) (dates : List T) :
    ∀ run ∈ weekRuns dateOf dates, run ≠ [] := by
  cases dates with
  | nil => simp [weekRuns]
  | cons d rest => exact weekRunsGo_ne_nil dateOf rest d []

theorem weekRunsGo_week_const {T : Type} (dateOf : T → Date) :
    ∀ (rest : List T) (cur : T) (accRun : List T),
      (∀ x ∈ accRun, getISOWeek (dateOf x) = getISOWeek (dateOf cur)) →
      ∀ run ∈ weekRunsGo dateOf cur accRun rest,
      ∀ r ∈ run, ∀ r' ∈ run, getISOWeek (dateOf r) = getISOWeek (dateOf r') := by
  intro rest
  induction rest with
  | nil =>
    intro cur accRun hacc run hrun r hr r' hr'
    simp only [weekRunsGo, List.mem_singleton] at hrun
    subst hrun
    have hall : ∀ x ∈ accRun ++ [cur], getISOWeek (dateOf x) = getISOWeek (dateOf cur) := by
      intro x hx
      rcases List.mem_append.mp hx with hx | hx
      · exact hacc x hx
      · simp only [List.mem_singleton] at hx; simp [hx]
    rw [hall r hr, hall r' hr']
  | cons next rest' ih =>
    intro cur accRun hacc run hrun r hr r' hr'
    by_cases h : getISOWeek (dateOf next) = getISOWeek (dateOf cur)
    · simp only [weekRunsGo, h, if_pos] at hrun
      refine ih next (accRun ++ [cur]) ?_ run hrun r hr r' hr'
      intro x hx
      rcases List.mem_append.mp hx with hx | hx
      · rw [hacc x hx, h]
      · simp only [List.mem_singleton] at hx; simp [hx, h]
    · simp only [weekRunsGo, h, if_neg, List.mem_cons, ite_false] at hrun
      rcases hrun with hrun | hrun
      · subst hrun
        have hall : ∀ x ∈ accRun ++ [cur], getISOWeek (dateOf x) = getISOWeek (dateOf cur) := by
          intro x hx
          rcases List.mem_append.mp hx with hx | hx
          · exact hacc x hx
          · simp only [List.mem_singleton] at hx; simp [hx]
        rw [hall r hr, hall r' hr']
      · exact ih next [] (by simp) run hrun r hr r' hr'

theorem weekRuns_week_const {T : Type} (dateOf : T → Date) (dates : List T) :
    ∀ run ∈ weekRuns dateOf dates,
    ∀ r ∈ run, ∀ r' ∈ run, getISOWeek (dateOf r) = getISOWeek (dateOf r') := by
  cases dates with
  | nil => simp [weekRuns]
  | cons d rest => exact weekRunsGo_week_const dateOf rest d [] (by simp)

theorem filterMap_recordOf_map_record {T : Type} (run : List T) :
    (run.map WeekNumberDecoration.record).filterMap recordOf = run := by
  induction run with
  | nil => rfl
  | cons r rs ih => simp [recordOf, ih]

theorem filterMap_markerDateOf_map_record {T : Type} (run : List T) :
    (run.map WeekNumberDecoration.record).filterMap (markerDateOf (T := T)) = [] := by
  induction run with
  | nil => rfl
  | cons r rs ih => simp [markerDateOf, ih]

theorem filterMap_markerWeekOf_map_record {T : Type} (run : List T) :
    (run.map WeekNumberDecoration.record).filterMap (markerWeekOf (T := T)) = [] := by
  induction run with
  | nil => rfl
  | cons r rs ih => simp [markerWeekOf, ih]

theorem filterMap_markerMultiOf_map_record {T : Type} (run : List T) :
    (run.map WeekNumberDecoration.record).filterMap (markerMultiOf (T := T)) = [] := by
  induction run with
  | nil => rfl
  | cons r rs ih => simp [markerMultiOf, ih]

theorem any_map_eq {A B : Type} (f : A → B) (p : B → Bool) (l : List A) :
    (l.map f).any p = l.any (fun x => p (f x)) := by
  induction l with
  | nil => rfl
  | cons a l ih => simp [ih]

theorem flatMap_chunks_filterMap_recordOf {T : Type} (dateOf : T → Date)
    (runs : List (List T)) :
    ((runs.flatMap (fun run => run.map WeekNumberDecoration.record ++ runMarkerOf dateOf run)).filterMap
        recordOf) = runs.flatten := by
  induction runs with
  | nil => simp
  | cons run rest ih =>
    simp only [List.flatMap_cons, List.filterMap_append, List.flatten_cons, ih,
      filterMap_recordOf_map_record]
    congr 1
    cases hlast : run.getLast? with
    | none => simp [runMarkerOf, hlast]
    | some lastRec => simp [runMarkerOf, hlast, recordOf]

theorem flatMap_chunks_filterMap_markerDateOf {T : Type} (dateOf : T → Date)
    (runs : List (List T)) :
    ((runs.flatMap (fun run => run.map WeekNumberDecoration.record ++ runMarkerOf dateOf run)).filterMap
        markerDateOf)
      = runs.filterMap (fun run => run.getLast?.map dateOf) := by
  induction runs with
  | nil => simp
  | cons run rest ih =>
    simp only [List.flatMap_cons, List.filterMap_append, List.filterMap_cons, ih,
      filterMap_markerDateOf_map_record, List.nil_append]
    cases hlast : run.getLast? with
    | none => simp [runMarkerOf, hlast]
    | some lastRec => simp [runMarkerOf, hlast, markerDateOf]

theorem flatMap_chunks_filterMap_markerWeekOf {T : Type} (dateOf : T → Date)
    (runs : List (List T)) :
    ((runs.flatMap (fun run => run.map WeekNumberDecoration.record ++ runMarkerOf dateOf run)).filterMap
        markerWeekOf)
      = runs.filterMap (fun run => run.getLast?.map (fun r => getISOWeek (dateOf r))) := by
  induction runs with
  | nil => simp
  | cons run rest ih =>
    simp only [List.flatMap_cons, List.filterMap_append, List.filterMap_cons, ih,
      filterMap_markerWeekOf_map_record, List.nil_append]
    cases hlast : run.getLast? with
    | none => simp [runMarkerOf, hlast]
    | some lastRec => simp [runMarkerOf, hlast, markerWeekOf]

theorem flatMap_chunks_filterMap_markerMultiOf {T : Type} (dateOf : T → Date)
    (runs : List (List T)) :
    ((runs.flatMap (fun run => run.map WeekNumberDecoration.record ++ runMarkerOf dateOf run)).filterMap
        markerMultiOf)
      = runs.filterMap (fun run => run.getLast?.map
          (fun lastR => run.any (fun r => getMonth (dateOf r) != getMonth (dateOf lastR)))) := by
  induction runs with
  | nil => simp
  | cons run rest ih =>
    simp only [List.flatMap_cons, List.filterMap_append, List.filterMap_cons, ih,
      filterMap_markerMultiOf_map_record, List.nil_append]
    cases hlast : run.getLast? with
    | none => simp [runMarkerOf, hlast]
    | some lastRec =>
      simp [runMarkerOf, hlast, markerMultiOf]
      rw [any_map_eq]

theorem flatMap_chunks_length {T : Type} (dateOf : T → Date) (runs : List (List T))
    (hne : ∀ run ∈ runs, run ≠ []) :
    (runs.flatMap (fun run => run.map WeekNumberDecoration.record ++ runMarkerOf dateOf run)).length
      = runs.flatten.length + runs.length := by
  induction runs with
  | nil => simp
  | cons run rest ih =>
    have hrun : run ≠ [] := hne run (by simp)
    have hlast : ∃ lastRec, run.getLast? = some lastRec := by
      cases hl : run.getLast? with
      | none => exact absurd (List.getLast?_eq_none_iff.mp hl) hrun
      | some lastRec => exact ⟨lastRec, rfl⟩
    obtain ⟨lastRec, hlast⟩ := hlast
    have ihr := ih (fun r hr => hne r (by simp [hr]))
    simp only [List.flatMap_cons, List.length_append, ihr, List.flatten_cons, List.length_cons,
      List.length_map]
    simp only [runMarkerOf, hlast, List.length_cons, List.length_nil]
    omega

theorem weekRunsGo_head_shape {T : Type} (dateOf : T → Date) :
    ∀ (rest : List T) (cur : T) (accRun : List T),
      ∃ t, (weekRunsGo dateOf cur accRun rest).head? = some (accRun ++ cur :: t) := by
  intro rest
  induction rest with
  | nil => intro cur accRun; exact ⟨[], by simp [weekRunsGo]⟩
  | cons next rest' ih =>
    intro cur accRun
    by_cases h : getISOWeek (dateOf next) = getISOWeek (dateOf cur)
    · obtain ⟨t, ht⟩ := ih next (accRun ++ [cur])
      exact ⟨next :: t, by simp only [weekRunsGo, h, if_pos]; simpa using ht⟩
    · exact ⟨[], by simp [weekRunsGo, h]⟩

theorem weekRunsGo_boundary {T : Type} (dateOf : T → Date) :
    ∀ (rest : List T) (cur : T) (accRun : List T),
      List.Chain' (fun r1 r2 => ∀ a, r1.getLast? = some a → ∀ b, r2.head? = some b →
        getISOWeek (dateOf a) ≠ getISOWeek (dateOf b)) (weekRunsGo dateOf cur accRun rest) := by
  intro rest
  induction rest with
  | nil => intro cur accRun; simp [weekRunsGo]
  | cons next rest' ih =>
    intro cur accRun
    by_cases h : getISOWeek (dateOf next) = getISOWeek (dateOf cur)
    · simp only [weekRunsGo, h, if_pos]
      exact ih next (accRun ++ [cur])
    · simp only [weekRunsGo, h, if_neg, ite_false]
      rw [List.chain'_cons']
      refine ⟨?_, ih next []⟩
      intro r2 hr2 a ha b hb
      obtain ⟨t, ht⟩ := weekRunsGo_head_shape dateOf rest' next []
      rw [ht] at hr2
      simp only [Option.mem_def, Option.some_inj] at hr2
      subst hr2
      simp only [List.nil_append, List.head?_cons, Option.some_inj] at hb
      subst hb
      simp only [List.getLast?_append, List.getLast?_singleton] at ha
      simp only [Option.or_some, Option.some_inj] at ha
      subst ha
      exact fun hc => h hc.symm

/-- Adjacent runs of the decomposition carry different ISO week numbers, so
together with `weekRuns_flatten` and `weekRuns_week_const` the decomposition
consists of the maximal runs of equal ISO week number. -/
theorem weekRuns_boundary {T : Type} (dateOf : T → Date) (dates : List T) :
    List.Chain' (fun r1 r2 => ∀ a, r1.getLast? = some a → ∀ b, r2.head? = some b →
      getISOWeek (dateOf a) ≠ getISOWeek (dateOf b)) (weekRuns dateOf dates) := by
  cases dates with
  | nil => simp [weekRuns]
  | cons d rest => exact weekRunsGo_boundary dateOf rest d []

/-! ## The claims about the decorator -/

/-- C1: on every non-empty ascending input, each week marker the decorator
appends carries the date of the LAST record of the week run it closes: the
markers' dates, in output order, are exactly the dates of the last record of
each week run. -/
theorem claim_C1_marker_date_is_run_last (T : Type) (dateOf : T → Date) (dates : List T)
    (hasc : isAscending dateOf dates = true) (hne : dates ≠ []) :
    (decorate dateOf dates).filterMap markerDateOf
      = (weekRuns dateOf dates).filterMap (fun run => run.getLast?.map dateOf) := by
  rw [decorate_eq_decorateRuns, decorateRuns, flatMap_chunks_filterMap_markerDateOf]

theorem claim_C1_witness :
    (decorate (fun d => d) [mkDate 2023 1 1, mkDate 2023 1 2]).filterMap markerDateOf
      = (weekRuns (fun d => d) [mkDate 2023 1 1, mkDate 2023 1 2]).filterMap
          (fun run => run.getLast?.map (fun d => d)) :=
  claim_C1_marker_date_is_run_last Date (fun d => d) [mkDate 2023 1 1, mkDate 2023 1 2]
    (by decide) (by decide)

/-- C2: the decorator maps the empty input to the empty output, and on a
non-empty ascending input of `n` records with `k` maximal week runs the
output has exactly `n + k` elements: one marker per run. -/
theorem claim_C2_output_length (T : Type) (dateOf : T → Date) (dates : List T)
    (hasc : isAscending dateOf dates = true) (hne : dates ≠ []) :
    decorate dateOf ([] : List T) = []
    ∧ (decorate dateOf dates).length = dates.length + (weekRuns dateOf dates).length := by
  refine ⟨rfl, ?_⟩
  rw [decorate_eq_decorateRuns, decorateRuns,
    flatMap_chunks_length dateOf _ (weekRuns_ne_nil dateOf dates), weekRuns_flatten]

theorem claim_C2_witness :
    decorate (fun d => d) ([] : List Date) = []
    ∧ (decorate (fun d => d) [mkDate 2023 1 1, mkDate 2023 1 2, mkDate 2023 1 3]).length
        = [mkDate 2023 1 1, mkDate 2023 1 2, mkDate 2023 1 3].length
          + (weekRuns (fun d => d) [mkDate 2023 1 1, mkDate 2023 1 2, mkDate 2023 1 3]).length :=
  claim_C2_output_length Date (fun d => d) [mkDate 2023 1 1, mkDate 2023 1 2, mkDate 2023 1 3]
    (by decide) (by decide)

/-- C3: on every ascending input the decorator appends every input record
unchanged and in input order (deleting the markers recovers the input
exactly), and the output is precisely the concatenation, run by run, of the
run's records followed immediately by that run's single week marker — so each
marker sits right after the last record of its run and right before the first
record of the next run. -/
theorem claim_C3_records_and_placement (T : Type) (dateOf : T → Date) (dates : List T)
    (hasc : isAscending dateOf dates = true) :
    (decorate dateOf dates).filterMap recordOf = dates
    ∧ decorate dateOf dates
        = (weekRuns dateOf dates).flatMap
            (fun run => run.map WeekNumberDecoration.record ++ runMarkerOf dateOf run) := by
  constructor
  · rw [decorate_eq_decorateRuns, decorateRuns, flatMap_chunks_filterMap_recordOf,
      weekRuns_flatten]
  · rw [decorate_eq_decorateRuns, decorateRuns]

theorem claim_C3_witness :
    (decorate (fun d => d) [mkDate 2023 1 1, mkDate 2023 1 2]).filterMap recordOf
      = [mkDate 2023 1 1, mkDate 2023 1 2] :=
  (claim_C3_records_and_placement Date (fun d => d) [mkDate 2023 1 1, mkDate 2023 1 2]
    (by decide)).1

/-- C4: on every ascending input, each week marker's `weekNumber` is the ISO
week number of the first record of the run it closes, and all records of one
run share one ISO week number — so the marker's week number matches every
record of its run, the first and the last in particular. -/
theorem claim_C4_marker_week_matches_run (T : Type) (dateOf : T → Date) (dates : List T)
    (hasc : isAscending dateOf dates = true) :
    (decorate dateOf dates).filterMap markerWeekOf
      = (weekRuns dateOf dates).filterMap
          (fun run => run.head?.map (fun r => getISOWeek (dateOf r)))
    ∧ ∀ run ∈ weekRuns dateOf dates, ∀ r ∈ run, ∀ r' ∈ run,
        getISOWeek (dateOf r) = getISOWeek (dateOf r') := by
  refine ⟨?_, weekRuns_week_const dateOf dates⟩
  rw [decorate_eq_decorateRuns, decorateRuns, flatMap_chunks_filterMap_markerWeekOf]
  apply List.filterMap_congr
  intro run hrun
  cases run with
  | nil => rfl
  | cons a rs =>
    have hlast := List.getLast?_eq_getLast (a :: rs) (by simp)
    rw [hlast, List.head?_cons, Option.map_some', Option.map_some']
    have hmem : (a :: rs).getLast (by simp) ∈ a :: rs := List.getLast_mem _
    rw [weekRuns_week_const dateOf dates _ hrun _ hmem a (by simp)]

theorem claim_C4_witness :
    (decorate (fun d => d) [mkDate 2023 1 2, mkDate 2023 1 3]).filterMap markerWeekOf
      = (weekRuns (fun d => d) [mkDate 2023 1 2, mkDate 2023 1 3]).filterMap
          (fun run => run.head?.map (fun r => getISOWeek r)) :=
  (claim_C4_marker_week_matches_run Date (fun d => d) [mkDate 2023 1 2, mkDate 2023 1 3]
    (by decide)).1

/-- C9: the decorator is total: on every input whatsoever — sorted or not —
it reaches no failure state; in particular the per-week date collection read
when a marker is emitted (`weekDates[weekDates.length - 1]`, modelled by
`getLast?`) is never empty, so `decorateOpt` never returns `none`. -/
theorem claim_C9_decorator_total (T : Type) (dateOf : T → Date) (dates : List T) :
    (decorateOpt dateOf dates).isSome = true := by
  rw [decorateOpt_eq_decorateRuns]
  rfl

/-- C10: every week marker's `isMultiMonth` flag is true exactly when some
record of the run the marker closes has a different calendar month than the
run's last record; on a single-record run the flag is false. -/
theorem claim_C10_multimonth_flag (T : Type) (dateOf : T → Date) (dates : List T) :
    (decorate dateOf dates).filterMap markerMultiOf
      = (weekRuns dateOf dates).filterMap
          (fun run => run.getLast?.map
            (fun lastR => run.any (fun r => getMonth (dateOf r) != getMonth (dateOf lastR))))
    ∧ ∀ run ∈ weekRuns dateOf dates, ∀ r : T, run = [r] →
        run.any (fun x => getMonth (dateOf x) != getMonth (dateOf r)) = false := by
  constructor
  · rw [decorate_eq_decorateRuns, decorateRuns, flatMap_chunks_filterMap_markerMultiOf]
  · intro run hrun r hr
    subst hr
    simp

theorem claim_C10_witness :
    ([mkDate 2023 1 2] : List Date).any
        (fun x => getMonth x != getMonth (mkDate 2023 1 2)) = false :=
  (claim_C10_multimonth_flag Date (fun d => d) [mkDate 2023 1 2]).2
    [mkDate 2023 1 2] (by decide) (mkDate 2023 1 2) rfl

/-! ## The generator and the pipeline constructor -/

/-- C5: for start ≤ end (as calendar days), `generate` returns exactly
`daysBetween(start, end) + 1` records, the i-th being the factory applied to
`start` advanced by `i` whole days; hence (whenever the factory stores the
date it is given) the first record's date is `start`, the last record's
calendar day is `end`'s, and the dates ascend strictly by exactly one day. -/
theorem claim_C5_generate_spec (T : Type) (factory : Date → T) (dateOfT : T → Date)
    (s e : Date) (hle : s.day ≤ e.day) (hfac : ∀ d, dateOfT (factory d) = d) :
    (generate factory s e).length = (differenceInCalendarDays e s).toNat + 1
    ∧ (∀ i (hi : i < (generate factory s e).length),
        (generate factory s e).get ⟨i, hi⟩ = factory (addDays s (i : Int)))
    ∧ (generate factory s e).head?.map dateOfT = some s
    ∧ (generate factory s e).getLast?.map (fun r => (dateOfT r).day) = some e.day
    ∧ List.Chain' (fun a b => (dateOfT b).day = (dateOfT a).day + 1) (generate factory s e) := by
  have hn : (differenceInCalendarDays e s + 1).toNat = (e.day - s.day).toNat + 1 := by
    simp only [differenceInCalendarDays]
    omega
  have hrw : generate factory s e
      = (List.range ((e.day - s.day).toNat + 1)).map
          (fun i => factory (addDays s (Int.ofNat i))) := by
    simp only [generate]
    rw [hn]
  refine ⟨?_, ?_, ?_, ?_, ?_⟩
  · rw [hrw]
    simp only [List.length_map, List.length_range, differenceInCalendarDays]
  · intro i hi
    show ((List.range ((differenceInCalendarDays e s + 1).toNat)).map
        (fun j => factory (addDays s (Int.ofNat j)))).get ⟨i, hi⟩
      = factory (addDays s (i : Int))
    simp [List.get_eq_getElem, List.getElem_map, List.getElem_range, Int.ofNat_eq_coe]
  · rw [hrw, List.range_succ_eq_map, List.map_cons, List.head?_cons, Option.map_some']
    rw [hfac]
    obtain ⟨sd, st⟩ := s
    simp [addDays]
  · rw [hrw, List.range_succ, List.map_append, List.map_cons, List.map_nil,
      List.getLast?_append]
    simp only [List.getLast?_singleton, Option.or_some, Option.map_some', hfac]
    simp only [addDays, Option.some_inj, Int.ofNat_eq_coe]
    omega
  · rw [hrw, List.chain'_map, List.chain'_range_succ]
    intro m hm
    rw [hfac, hfac]
    simp only [addDays, Int.ofNat_eq_coe]
    push_cast
    omega

theorem claim_C5_witness :
    (generate (fun d => d) (mkDate 2023 1 1) (mkDate 2023 1 3)).head?.map (fun d => d)
      = some (mkDate 2023 1 1) :=
  (claim_C5_generate_spec Date (fun d => d) (fun d => d) (mkDate 2023 1 1) (mkDate 2023 1 3)
    (by decide) (fun _ => rfl)).2.2.1

/-- C8: constructing a `DateRange` fails, with an error message carrying both
normalized dates, exactly when the start normalized to start-of-day is
strictly after the end normalized to start-of-day (equivalently, when the
start's calendar day is after the end's); otherwise it succeeds with the
working sequence initialized empty. -/
theorem claim_C8_constructor (T S : Type) (s e : Date) :
    (mkDateRange T S s e = Except.error (rangeErrorMessage (startOfDay s) (startOfDay e))
        ↔ toMillis (startOfDay e) < toMillis (startOfDay s))
    ∧ (toMillis (startOfDay s) ≤ toMillis (startOfDay e) →
        mkDateRange T S s e
          = Except.ok ⟨startOfDay s, startOfDay e, ([] : List (T ⊕ S))⟩)
    ∧ (toMillis (startOfDay e) < toMillis (startOfDay s) ↔ e.day < s.day)
    ∧ (∃ pre mid, rangeErrorMessage (startOfDay s) (startOfDay e)
        = pre ++ reprStr (startOfDay s) ++ mid ++ reprStr (startOfDay e)) := by
  refine ⟨?_, ?_, ?_, ?_⟩
  · by_cases hc : toMillis (startOfDay e) < toMillis (startOfDay s)
    · simp [mkDateRange, hc]
    · simp [mkDateRange, hc]
  · intro hle
    have hc : ¬ toMillis (startOfDay e) < toMillis (startOfDay s) := not_lt.mpr hle
    simp [mkDateRange, hc]
  · simp only [startOfDay, toMillis]
    omega
  · exact ⟨"ERROR! location: DateRange.ts. Message: ", " is greater than ", by
      simp [rangeErrorMessage]⟩

theorem claim_C8_witness :
    mkDateRange Unit Unit (mkDate 2023 1 1) (mkDate 2023 1 1)
      = Except.ok ⟨startOfDay (mkDate 2023 1 1), startOfDay (mkDate 2023 1 1),
          ([] : List (Unit ⊕ Unit))⟩ :=
  (claim_C8_constructor Unit Unit (mkDate 2023 1 1) (mkDate 2023 1 1)).2.1 (by decide)

/-! ## The grouping strategy -/

/-- Invariant of the fold inside `group`: after processing the prefix `p`,
the association list `acc` has pairwise distinct month keys, each entry's
bucket has the 1-based number of its key and, as data, exactly the records of
`p` with that month in input order, and the keys are exactly the months
occurring in `p`. -/
def GroupAccInv {T : Type} (dateOf : T → Date) (p : List T)
    (acc : List (Nat × MonthInfo T)) : Prop :=
  (acc.map Prod.fst).Nodup
  ∧ (∀ ent ∈ acc, ent.2.number = ent.1 + 1
      ∧ ent.2.data = p.filter (fun r => getMonth (dateOf r) == ent.1))
  ∧ (∀ m : Nat, (∃ ent ∈ acc, ent.1 = m) ↔ (∃ r ∈ p, getMonth (dateOf r) = m))

theorem groupAccInv_step {T : Type} (dateOf : T → Date) (p : List T)
    (acc : List (Nat × MonthInfo T)) (r : T) (h : GroupAccInv dateOf p acc) :
    GroupAccInv dateOf (p ++ [r]) (insertRecord dateOf acc r) := by
  obtain ⟨hnd, hent, hiff⟩ := h
  by_cases hmem : (acc.any fun ent => ent.1 == getMonth (dateOf r)) = true
  · simp only [insertRecord, if_pos hmem]
    refine ⟨?_, ?_, ?_⟩
    · have hkeys : (acc.map (fun ent =>
          if ent.1 == getMonth (dateOf r) then
            (ent.1, (⟨ent.2.title, ent.2.number, ent.2.data ++ [r]⟩ : MonthInfo T))
          else ent)).map Prod.fst = acc.map Prod.fst := by
        rw [List.map_map]
        apply List.map_congr_left
        intro ent _
        by_cases hc : ent.1 = getMonth (dateOf r) <;> simp [hc]
      rw [hkeys]
      exact hnd
    · intro ent' hent'
      obtain ⟨ent, hmem2, hre⟩ := List.mem_map.mp hent'
      obtain ⟨hnum, hdata⟩ := hent ent hmem2
      by_cases hc : ent.1 = getMonth (dateOf r)
      · rw [if_pos (by simp [hc])] at hre
        subst hre
        refine ⟨hnum, ?_⟩
        rw [List.filter_append, ← hdata]
        simp [hc]
      · rw [if_neg (by simp [hc])] at hre
        subst hre
        refine ⟨hnum, ?_⟩
        rw [List.filter_append, ← hdata]
        have hq : (getMonth (dateOf r) == ent.1) = false := by
          simp only [beq_eq_false_iff_ne]
          exact fun hx => hc hx.symm
        simp [hq]
    · intro m
      constructor
      · intro ⟨ent', hent', hkey⟩
        obtain ⟨ent, hmem2, hre⟩ := List.mem_map.mp hent'
        have hkey2 : ent.1 = m := by
          by_cases hc : ent.1 = getMonth (dateOf r)
          · rw [if_pos (by simp [hc])] at hre; rw [← hre] at hkey; exact hkey
          · rw [if_neg (by simp [hc])] at hre; rw [← hre] at hkey; exact hkey
        rcases (hiff m).mp ⟨ent, hmem2, hkey2⟩ with ⟨r', hr', hm'⟩
        exact ⟨r', by simp [hr'], hm'⟩
      · intro ⟨r', hr', hm'⟩
        rcases List.mem_append.mp hr' with hr' | hr'
        · obtain ⟨ent, hmem2, hkey⟩ := (hiff m).mpr ⟨r', hr', hm'⟩
          refine ⟨(if ent.1 == getMonth (dateOf r) then
              (ent.1, (⟨ent.2.title, ent.2.number, ent.2.data ++ [r]⟩ : MonthInfo T))
            else ent), List.mem_map.mpr ⟨ent, hmem2, rfl⟩, ?_⟩
          by_cases hc : ent.1 = getMonth (dateOf r)
          · rw [if_pos (by simp [hc])]; exact hkey
          · rw [if_neg (by simp [hc])]; exact hkey
        · simp only [List.mem_singleton] at hr'
          rw [hr'] at hm'
          obtain ⟨ent, hmem2, hpred⟩ := List.any_eq_true.mp hmem
          have hkey : ent.1 = getMonth (dateOf r) := by simpa using hpred
          refine ⟨(ent.1, (⟨ent.2.title, ent.2.number, ent.2.data ++ [r]⟩ : MonthInfo T)),
            List.mem_map.mpr ⟨ent, hmem2, by rw [if_pos (by simp [hkey])]⟩, ?_⟩
          rw [hkey, hm']
  · simp only [insertRecord, if_neg hmem]
    have hknotin : ∀ ent ∈ acc, ent.1 ≠ getMonth (dateOf r) := by
      intro ent hmem2 hc
      exact hmem (List.any_eq_true.mpr ⟨ent, hmem2, by simp [hc]⟩)
    refine ⟨?_, ?_, ?_⟩
    · rw [List.map_append]
      simp only [List.map_cons, List.map_nil]
      rw [List.nodup_append]
      refine ⟨hnd, by simp, ?_⟩
      intro k hk
      obtain ⟨ent, hmem2, hke⟩ := List.mem_map.mp hk
      simp only [List.mem_singleton]
      intro hc
      exact hknotin ent hmem2 (by rw [hke, hc])
    · intro ent' hent'
      rcases List.mem_append.mp hent' with hmem2 | hmem2
      · obtain ⟨hnum, hdata⟩ := hent ent' hmem2
        refine ⟨hnum, ?_⟩
        rw [List.filter_append, ← hdata]
        have hq : (getMonth (dateOf r) == ent'.1) = false := by
          simp only [beq_eq_false_iff_ne]
          exact fun hx => hknotin ent' hmem2 hx.symm
        simp [hq]
      · simp only [List.mem_singleton] at hmem2
        subst hmem2
        refine ⟨rfl, ?_⟩
        have hnone : p.filter (fun r' => getMonth (dateOf r') == getMonth (dateOf r)) = [] := by
          rw [List.filter_eq_nil_iff]
          intro r' hr' hc
          have hm' : getMonth (dateOf r') = getMonth (dateOf r) := by simpa using hc
          obtain ⟨ent, hmem2, hkey⟩ := (hiff (getMonth (dateOf r))).mpr ⟨r', hr', hm'⟩
          exact hknotin ent hmem2 hkey
        rw [List.filter_append, hnone]
        simp
    · intro m
      constructor
      · intro ⟨ent, hent2, hkey⟩
        rcases List.mem_append.mp hent2 with hmem2 | hmem2
        · rcases (hiff m).mp ⟨ent, hmem2, hkey⟩ with ⟨r', hr', hm'⟩
          exact ⟨r', by simp [hr'], hm'⟩
        · simp only [List.mem_singleton] at hmem2
          subst hmem2
          exact ⟨r, by simp, hkey.symm ▸ rfl⟩
      · intro ⟨r', hr', hm'⟩
        rcases List.mem_append.mp hr' with hr' | hr'
        · obtain ⟨ent, hmem2, hkey⟩ := (hiff m).mpr ⟨r', hr', hm'⟩
          exact ⟨ent, by simp [hmem2], hkey⟩
        · simp only [List.mem_singleton] at hr'
          rw [hr'] at hm'
          exact ⟨(getMonth (dateOf r), ⟨toLocaleMonthLong (dateOf r), getMonth (dateOf r) + 1, [r]⟩),
            by simp, hm'⟩

theorem groupAccInv_foldl {T : Type} (dateOf : T → Date) :
    ∀ (rest p : List T) (acc : List (Nat × MonthInfo T)),
      GroupAccInv dateOf p acc →
      GroupAccInv dateOf (p ++ rest) (rest.foldl (insertRecord dateOf) acc) := by
  intro rest
  induction rest with
  | nil => intro p acc h; simpa using h
  | cons r rest' ih =>
    intro p acc h
    have h2 := ih (p ++ [r]) (insertRecord dateOf acc r) (groupAccInv_step dateOf p acc r h)
    simpa using h2

theorem groupAccInv_dates {T : Type} (dateOf : T → Date) (dates : List T) :
    GroupAccInv dateOf dates (dates.foldl (insertRecord dateOf) []) := by
  have h0 : GroupAccInv dateOf [] [] := ⟨by simp, by simp, by simp⟩
  simpa using groupAccInv_foldl dateOf dates [] [] h0

theorem insertByNumber_perm {T : Type} (b : MonthInfo T) (l : List (MonthInfo T)) :
    (insertByNumber b l).Perm (b :: l) := by
  induction l with
  | nil => exact List.Perm.refl _
  | cons c cs ih =>
    by_cases h : b.number ≤ c.number
    · simp [insertByNumber, h]
    · simp only [insertByNumber, if_neg h]
      exact (ih.cons c).trans (List.Perm.swap b c cs)

theorem sortByNumber_perm {T : Type} (l : List (MonthInfo T)) : (sortByNumber l).Perm l := by
  induction l with
  | nil => exact List.Perm.refl _
  | cons b bs ih => exact (insertByNumber_perm b (sortByNumber bs)).trans (ih.cons b)

theorem insertByNumber_sorted {T : Type} (b : MonthInfo T) (l : List (MonthInfo T))
    (h : l.Pairwise (fun x y => x.number ≤ y.number)) :
    (insertByNumber b l).Pairwise (fun x y => x.number ≤ y.number) := by
  induction l with
  | nil => simp [insertByNumber]
  | cons c cs ih =>
    rw [List.pairwise_cons] at h
    obtain ⟨hc, hcs⟩ := h
    by_cases hle : b.number ≤ c.number
    · simp only [insertByNumber, if_pos hle]
      rw [List.pairwise_cons]
      refine ⟨?_, List.pairwise_cons.mpr ⟨hc, hcs⟩⟩
      intro x hx
      rcases List.mem_cons.mp hx with hx | hx
      · subst hx; exact hle
      · exact le_trans hle (hc x hx)
    · simp only [insertByNumber, if_neg hle]
      rw [List.pairwise_cons]
      refine ⟨?_, ih hcs⟩
      intro x hx
      rcases List.mem_cons.mp ((insertByNumber_perm b cs).mem_iff.mp hx) with hx | hx
      · rw [hx]; exact le_of_not_le hle
      · exact hc x hx

theorem sortByNumber_sorted {T : Type} (l : List (MonthInfo T)) :
    (sortByNumber l).Pairwise (fun x y => x.number ≤ y.number) := by
  induction l with
  | nil => simp [sortByNumber]
  | cons b bs ih => exact insertByNumber_sorted b (sortByNumber bs) ih

theorem mem_group_iff {T : Type} (dateOf : T → Date) (dates : List T) (b : MonthInfo T) :
    b ∈ group dateOf dates ↔ ∃ ent ∈ dates.foldl (insertRecord dateOf) [], ent.2 = b := by
  rw [group, (sortByNumber_perm _).mem_iff, List.mem_map]

/-- C6: `group` keys buckets on month-of-year only (each bucket's number is
one plus the 0-based month of every record it holds, whatever the year), it
covers every input record, and the returned buckets are strictly sorted by
month number regardless of first-seen order. -/
theorem claim_C6_group_by_month_sorted (T : Type) (dateOf : T → Date) (dates : List T) :
    (∀ b ∈ group dateOf dates, ∀ r ∈ b.data, b.number = getMonth (dateOf r) + 1)
    ∧ (∀ r ∈ dates, ∃ b ∈ group dateOf dates, r ∈ b.data)
    ∧ (∀ b1 ∈ group dateOf dates, ∀ b2 ∈ group dateOf dates, b1.number = b2.number → b1 = b2)
    ∧ List.Chain' (fun a b => a.number < b.number) (group dateOf dates) := by
  obtain ⟨hnd, hent, hiff⟩ := groupAccInv_dates dateOf dates
  have huniq : ∀ hne : (group dateOf dates).Pairwise (fun a b => a.number ≠ b.number),
      ∀ b1 ∈ group dateOf dates, ∀ b2 ∈ group dateOf dates, b1.number = b2.number → b1 = b2 := by
    intro hne b1 hb1 b2 hb2 heq
    by_contra hneq
    have hsym : Symmetric (fun a b : MonthInfo T => a.number ≠ b.number) :=
      fun a b h hx => h hx.symm
    exact List.Pairwise.forall hsym hne hb1 hb2 hneq heq
  have hperm : ((group dateOf dates).map (fun b => b.number)).Perm
      (((dates.foldl (insertRecord dateOf) []).map Prod.snd).map (fun b => b.number)) :=
    (sortByNumber_perm _).map _
  have hnums : ((dates.foldl (insertRecord dateOf) []).map Prod.snd).map (fun b => b.number)
      = ((dates.foldl (insertRecord dateOf) []).map Prod.fst).map (fun k => k + 1) := by
    rw [List.map_map, List.map_map]
    apply List.map_congr_left
    intro ent hmem
    exact (hent ent hmem).1
  have hnodup : ((group dateOf dates).map (fun b => b.number)).Nodup := by
    rw [hperm.nodup_iff, hnums]
    exact List.pairwise_map.mpr (hnd.imp (fun hab => by omega))
  have hne : (group dateOf dates).Pairwise (fun a b => a.number ≠ b.number) :=
    List.pairwise_map.mp hnodup
  refine ⟨?_, ?_, ?_, ?_⟩
  · intro b hb r hr
    obtain ⟨ent, hmem, he⟩ := (mem_group_iff dateOf dates b).mp hb
    obtain ⟨hnum, hdata⟩ := hent ent hmem
    rw [← he] at hr ⊢
    rw [hdata] at hr
    have hm := (List.mem_filter.mp hr).2
    have : getMonth (dateOf r) = ent.1 := by simpa using hm
    rw [hnum, this]
  · intro r hr
    obtain ⟨ent, hmem, hkey⟩ := (hiff (getMonth (dateOf r))).mpr ⟨r, hr, rfl⟩
    refine ⟨ent.2, (mem_group_iff dateOf dates ent.2).mpr ⟨ent, hmem, rfl⟩, ?_⟩
    obtain ⟨hnum, hdata⟩ := hent ent hmem
    rw [hdata]
    exact List.mem_filter.mpr ⟨hr, by simp [hkey]⟩
  · exact huniq hne
  · have hle := sortByNumber_sorted ((dates.foldl (insertRecord dateOf) []).map Prod.snd)
    have hlt : (group dateOf dates).Pairwise (fun a b => a.number < b.number) := by
      have := hle.and hne
      exact this.imp (fun hab => lt_of_le_of_ne hab.1 hab.2)
    exact hlt.chain'

theorem claim_C6_witness :
    ∀ r ∈ [mkDate 2023 2 5, mkDate 2023 1 2, mkDate 2024 1 9],
      ∃ b ∈ group (fun d => d) [mkDate 2023 2 5, mkDate 2023 1 2, mkDate 2024 1 9], r ∈ b.data :=
  (claim_C6_group_by_month_sorted Date (fun d => d)
    [mkDate 2023 2 5, mkDate 2023 1 2, mkDate 2024 1 9]).2.1

/-- C7: `group` is a stable partition — each bucket's data is exactly the
input filtered to that bucket's month, in input order; the empty input gives
no buckets; and a single-month input gives exactly one bucket holding all
records. -/
theorem claim_C7_group_stable_partition (T : Type) (dateOf : T → Date) (dates : List T) :
    (∀ b ∈ group dateOf dates,
        b.data = dates.filter (fun r => getMonth (dateOf r) + 1 == b.number))
    ∧ group dateOf ([] : List T) = []
    ∧ (∀ m : Nat, dates ≠ [] → (∀ r ∈ dates, getMonth (dateOf r) = m) →
        (group dateOf dates).map (fun b => b.data.length) = [dates.length]) := by
  obtain ⟨hnd, hent, hiff⟩ := groupAccInv_dates dateOf dates
  refine ⟨?_, rfl, ?_⟩
  · intro b hb
    obtain ⟨ent, hmem, he⟩ := (mem_group_iff dateOf dates b).mp hb
    obtain ⟨hnum, hdata⟩ := hent ent hmem
    rw [← he, hdata]
    apply List.filter_congr
    intro r hr
    rw [hnum]
    by_cases hc : getMonth (dateOf r) = ent.1
    · simp [hc]
    · have h1 : (getMonth (dateOf r) == ent.1) = false := by
        simp only [beq_eq_false_iff_ne]
        omega
      have h2 : (getMonth (dateOf r) + 1 == ent.1 + 1) = false := by
        simp only [beq_eq_false_iff_ne]
        omega
      rw [h1, h2]
  · intro m hne hall
    have hkeym : ∀ ent ∈ dates.foldl (insertRecord dateOf) [], ent.1 = m := by
      intro ent hmem
      obtain ⟨r', hr', hm'⟩ := (hiff ent.1).mp ⟨ent, hmem, rfl⟩
      rw [← hm']
      exact hall r' hr'
    have hacc_ne : dates.foldl (insertRecord dateOf) [] ≠ [] := by
      obtain ⟨r, hr⟩ := List.exists_mem_of_ne_nil dates hne
      obtain ⟨ent, hmem, _⟩ := (hiff (getMonth (dateOf r))).mpr ⟨r, hr, rfl⟩
      intro hc
      rw [hc] at hmem
      exact List.not_mem_nil ent hmem
    obtain ⟨ent, rest, hacc⟩ := List.exists_cons_of_ne_nil hacc_ne
    have hrest : rest = [] := by
      cases rest with
      | nil => rfl
      | cons ent2 rest2 =>
        exfalso
        rw [hacc] at hnd hkeym
        have h1 : ent.1 = m := hkeym ent (by simp)
        have h2 : ent2.1 = m := hkeym ent2 (by simp)
        rw [List.map_cons, List.nodup_cons] at hnd
        exact hnd.1 (by rw [h1, ← h2]; simp)
    have hkey : ent.1 = m := hkeym ent (by rw [hacc]; simp)
    have hdata := (hent ent (by rw [hacc]; simp)).2
    have hfilter : dates.filter (fun r => getMonth (dateOf r) == ent.1) = dates := by
      rw [List.filter_eq_self]
      intro r hr
      simp [hall r hr, hkey]
    have hdataeq : ent.2.data = dates := by rw [hdata, hfilter]
    simp only [group]
    rw [hacc, hrest]
    simp [sortByNumber, insertByNumber, hdataeq]

theorem claim_C7_witness :
    (group (fun d => d) [mkDate 2023 1 2, mkDate 2023 1 5]).map (fun b => b.data.length)
      = [([mkDate 2023 1 2, mkDate 2023 1 5] : List Date).length] :=
  (claim_C7_group_stable_partition Date (fun d => d) [mkDate 2023 1 2, mkDate 2023 1 5]).2.2
    0 (by decide) (by decide)

end DRU
